import Mathlib

/-!
Verification of the evox tutorial repository's claims.

The repository's own source (the notebooks) defines `pong_preprocess`, the
`OneMax` problem and the `CustomGA` algorithm, and drives a `StdWorkflow`
with a `StdSOMonitor`.  Those notebook definitions are embedded below
directly from the source.  The evox library itself (the `State` record with
`update`, the operators `mutation.bitflip`, `crossover.one_point`,
`selection.topk_fit`, the JAX PRNG, the workflow runtime and the monitor)
is not part of the supplied files, so those pieces are modelled from the
spec, each marked by a doc comment starting `Modelled from the spec:`.

Fitness values are `WithTop ℤ`: the notebook initializes `fit` with
`jnp.inf` (here `⊤`) and the workflow (built with `opt_direction="max"`)
feeds negated integer fitness values to the algorithm and the monitor,
so smaller is better throughout.
-/

/-- Map with the element's index, starting from a given index.  Helper used
to model JAX's vectorized elementwise operations that depend on position. -/
def mapWithIdx {α β : Type} (f : Nat → α → β) : Nat → List α → List β
  | _, [] => []
  | i, a :: as => f i a :: mapWithIdx f (i + 1) as

/-- Every other element of a list (indices 0, 2, 4, ...); this is the
slicing `[::2]` used by `pong_preprocess` to downsample by a factor of 2. -/
def everyOther {α : Type} : List α → List α
  | [] => []
  | [a] => [a]
  | a :: _ :: rest => a :: everyOther rest

/-- Modelled from the spec: JAX's `random.split(key)` (the PRNG is not in
the supplied files).  The spec only relies on splitting being a
deterministic function of the key producing distinct subkeys, which this
integer model provides. -/
def splitKey2 (key : Nat) : Nat × Nat := (2 * key + 1, 2 * key + 2)

/-- Modelled from the spec: JAX's `random.split(key, 3)`, as used by
`CustomGA.ask`; deterministic in the key, like `splitKey2`. -/
def splitKey3 (key : Nat) : Nat × Nat × Nat := (3 * key + 1, 3 * key + 2, 3 * key + 3)

/-- Modelled from the spec: `random.uniform(subkey, (pop_size, ndim)) < 0.5`
from `CustomGA.setup`, a pseudorandom boolean matrix of shape
`(pop_size, ndim)` that is a deterministic function of the key. -/
def randBoolMat (key popSize ndim : Nat) : List (List Bool) :=
  (List.range popSize).map fun i =>
    (List.range ndim).map fun j => decide ((key + i * ndim + j) % 2 = 0)

/-- Modelled from the spec: the operator `mutation.bitflip(key, pop, flip_prob)`
(absent from the supplied files).  The notebook describes `flip_prob` as
"the probability of fliping each bit"; the probability is modelled as a
percentage threshold, and whether position `(i, j)` flips is a
deterministic function of the key. -/
def bitflip (key : Nat) (pop : List (List Bool)) (flipProb : Nat) : List (List Bool) :=
  mapWithIdx (fun i row =>
    mapWithIdx (fun j b => if (key + 7 * i + 13 * j) % 100 < flipProb then !b else b) 0 row) 0 pop

/-- Modelled from the spec: the operator `crossover.one_point(key, pop)`
(absent from the supplied files): each row is recombined with its
neighbouring row at a key-dependent cut point, producing one child per
row of the population. -/
def one_point (key : Nat) (pop : List (List Bool)) : List (List Bool) :=
  mapWithIdx (fun i row =>
    let partner := pop.getD (if i % 2 = 0 then i + 1 else i - 1) row
    let cut := (key + i) % (row.length + 1)
    row.take cut ++ partner.drop cut) 0 pop

/-- Comparison of (individual, fitness) pairs by fitness, used to model
`selection.topk_fit`. -/
def fitLe (a b : List Bool × WithTop ℤ) : Prop := a.2 ≤ b.2

instance : DecidableRel fitLe := fun a b => inferInstanceAs (Decidable (a.2 ≤ b.2))

instance : IsTotal (List Bool × WithTop ℤ) fitLe := ⟨fun a b => le_total a.2 b.2⟩

instance : IsTrans (List Bool × WithTop ℤ) fitLe := ⟨fun _ _ _ => le_trans⟩

/-- Modelled from the spec: `selection.topk_fit(pop, fit, k)` (absent from
the supplied files): it returns the `k` individuals of `pop` with the best
(smallest, since the workflow minimizes) fitness, together with their
fitness values. -/
def topk_fit (pop : List (List Bool)) (fit : List (WithTop ℤ)) (k : Nat) :
    List (List Bool) × List (WithTop ℤ) :=
  let sorted := List.insertionSort fitLe (pop.zip fit)
  ((sorted.take k).map Prod.fst, (sorted.take k).map Prod.snd)

/-- The state threaded through `CustomGA`, with exactly the fields the
notebook's `setup` passes to the evox `State` constructor. -/
structure GAState where
  pop : List (List Bool)
  offsprings : List (List Bool)
  fit : List (WithTop ℤ)
  key : Nat
  deriving Repr, DecidableEq

/-- The hyperparameters of the notebook's `CustomGA` algorithm, fixed at
construction time.  `flip_prob` is a percentage (the notebook uses the
probability 0.1). -/
structure CustomGA where
  pop_size : Nat
  ndim : Nat
  flip_prob : Nat
  deriving Repr, DecidableEq

/-- `CustomGA.setup` from the notebook: split the key, draw a random
population, and initialize offsprings as a placeholder of shape
`(pop_size * 2, ndim)` and fitness as `pop_size` copies of infinity. -/
def CustomGA.setup (ga : CustomGA) (key : Nat) : GAState :=
  let ks := splitKey2 key
  { pop := randBoolMat ks.2 ga.pop_size ga.ndim
    offsprings := List.replicate (ga.pop_size * 2) (List.replicate ga.ndim false)
    fit := List.replicate ga.pop_size ⊤
    key := ks.1 }

/-- `CustomGA.ask` from the notebook: split the stored key in three,
concatenate the bitflip mutants of the population with its one-point
crossover children, and return them together with the state updated with
the new offsprings and key. -/
def CustomGA.ask (ga : CustomGA) (s : GAState) : List (List Bool) × GAState :=
  let ks := splitKey3 s.key
  let offsprings := bitflip ks.2.1 s.pop ga.flip_prob ++ one_point ks.2.2 s.pop
  (offsprings, { s with offsprings := offsprings, key := ks.1 })

/-- `CustomGA.tell` from the notebook: concatenate the old population and
fitness with the offsprings and their fitness, keep the `pop_size` best,
and store them back in the state. -/
def CustomGA.tell (ga : CustomGA) (s : GAState) (fitness : List (WithTop ℤ)) : GAState :=
  let merged_pop := s.pop ++ s.offsprings
  let merged_fit := s.fit ++ fitness
  let sel := topk_fit merged_pop merged_fit ga.pop_size
  { s with pop := sel.1, fit := sel.2 }

/-- `OneMax.evaluate` from the notebook: the fitness of each bitstring is
`jnp.sum(bitstrings, axis=1)`, the sum of its bits; the problem state is
returned unchanged.  Polymorphic in the state, as the Python method is. -/
def OneMax.evaluate {σ : Type} (state : σ) (bitstrings : List (List Bool)) :
    List Nat × σ :=
  (bitstrings.map (fun row => (row.map (fun b => if b then 1 else 0)).sum), state)

/-- The number of ones in a bitstring, the quantity the one-max problem
maximizes ("the string 01011 has a fitness of 3"). -/
def countOnes (row : List Bool) : Nat := row.count true

/-- Minimum of a list of fitness values (empty list gives `⊤`). -/
def listMin (l : List (WithTop ℤ)) : WithTop ℤ := l.foldr min ⊤

/-- Modelled from the spec: the workflow/monitor state.  The evox
`StdWorkflow` and `StdSOMonitor` are not in the supplied files; the spec
describes a workflow threading an immutable state through `init`/`step`
and a monitor that records fitness asynchronously ("flush make sure all
the data is collected").  The asynchrony is modelled by a `pending` buffer
of emitted-but-not-yet-collected fitness values next to the `collected`
store that `get_best_fitness` reads. -/
structure WFState where
  gaState : GAState
  pending : List (WithTop ℤ)
  collected : List (WithTop ℤ)
  deriving Repr, DecidableEq

/-- Modelled from the spec: `workflow.init(key) -> state`, specialized to
the notebook's `CustomGA` + `OneMax` + `StdSOMonitor` workflow: set up the
algorithm state and an empty monitor. -/
def wfInit (ga : CustomGA) (key : Nat) : WFState :=
  { gaState := CustomGA.setup ga key, pending := [], collected := [] }

/-- Modelled from the spec: the fitness vector emitted during one workflow
step: the offsprings produced by `ask` are evaluated by `OneMax`, and
since the workflow is built with `opt_direction="max"` the fitness is
negated before the algorithm and the monitor see it. -/
def stepFitness (ga : CustomGA) (w : WFState) : List (WithTop ℤ) :=
  let asked := CustomGA.ask ga w.gaState
  let evaluated := OneMax.evaluate asked.2 asked.1
  evaluated.1.map fun n => ((-(n : ℤ) : ℤ) : WithTop ℤ)

/-- Modelled from the spec: `workflow.step(state) -> state`: ask the
algorithm for candidates, evaluate them on the problem, emit the fitness
to the monitor (asynchronously, into `pending`), and tell the algorithm. -/
def wfStep (ga : CustomGA) (w : WFState) : WFState :=
  let asked := CustomGA.ask ga w.gaState
  let evaluated := OneMax.evaluate asked.2 asked.1
  let fitness := evaluated.1.map fun n => ((-(n : ℤ) : ℤ) : WithTop ℤ)
  { gaState := CustomGA.tell ga evaluated.2 fitness
    pending := w.pending ++ fitness
    collected := w.collected }

/-- Modelled from the spec: `workflow.sample(state) -> (population, state)`:
the current candidate population together with a state on which further
workflow operations can be applied. -/
def wfSample (w : WFState) : List (List Bool) × WFState :=
  (w.gaState.pop, w)

/-- Modelled from the spec: `monitor.flush()`: collect every fitness value
emitted so far. -/
def flush (w : WFState) : WFState :=
  { w with collected := w.collected ++ w.pending, pending := [] }

/-- Modelled from the spec: `monitor.get_best_fitness()`: the best
(smallest, in the workflow's minimizing convention) fitness collected. -/
def get_best_fitness (w : WFState) : WithTop ℤ := listMin w.collected

/-- Iterated `workflow.step`, as in the notebooks' `for` loops. -/
def stepN (ga : CustomGA) : Nat → WFState → WFState
  | 0, w => w
  | n + 1, w => wfStep ga (stepN ga n w)

/-- All fitness values emitted by the first `n` steps of the run that
starts from `wfInit ga key`, in emission order. -/
def emittedN (ga : CustomGA) (key : Nat) : Nat → List (WithTop ℤ)
  | 0 => []
  | n + 1 => emittedN ga key n ++ stepFitness ga (stepN ga n (wfInit ga key))

lemma length_mapWithIdx {α β : Type} (f : Nat → α → β) :
    ∀ (i : Nat) (l : List α), (mapWithIdx f i l).length = l.length := by
  intro i l
  induction l generalizing i with
  | nil => rfl
  | cons a as ih => simp [mapWithIdx, ih]

lemma mem_mapWithIdx {α β : Type} {f : Nat → α → β} :
    ∀ {i : Nat} {l : List α} {x : β}, x ∈ mapWithIdx f i l → ∃ j a, a ∈ l ∧ x = f j a := by
  intro i l
  induction l generalizing i with
  | nil => intro x h; cases h
  | cons a as ih =>
      intro x h
      rcases List.mem_cons.mp h with h | h
      · exact ⟨i, a, List.mem_cons_self a as, h⟩
      · obtain ⟨j, b, hb, hx⟩ := ih h
        exact ⟨j, b, List.mem_cons_of_mem a hb, hx⟩

lemma everyOther_length {α : Type} : ∀ l : List α, (everyOther l).length = (l.length + 1) / 2
  | [] => by simp [everyOther]
  | [_] => by simp [everyOther]
  | _ :: _ :: rest => by
      simp [everyOther, everyOther_length rest]
      omega

lemma mem_of_mem_everyOther {α : Type} :
    ∀ {l : List α} {x : α}, x ∈ everyOther l → x ∈ l
  | [], _, h => by cases h
  | [_], _, h => h
  | a :: b :: rest, x, h => by
      rcases List.mem_cons.mp h with h | h
      · exact h ▸ List.mem_cons_self a _
      · exact List.mem_cons_of_mem a
          (List.mem_cons_of_mem b (mem_of_mem_everyOther h))

lemma listMin_le_of_mem {l : List (WithTop ℤ)} {x : WithTop ℤ} (h : x ∈ l) : listMin l ≤ x := by
  induction l with
  | nil => cases h
  | cons a as ih =>
      rcases List.mem_cons.mp h with h | h
      · exact h ▸ min_le_left a (listMin as)
      · exact le_trans (min_le_right a (listMin as)) (ih h)

lemma le_listMin {l : List (WithTop ℤ)} {a : WithTop ℤ} (h : ∀ x ∈ l, a ≤ x) : a ≤ listMin l := by
  induction l with
  | nil => exact le_top
  | cons b bs ih =>
      refine le_min (h b (List.mem_cons_self b bs)) (ih ?_)
      intro x hx
      exact h x (List.mem_cons_of_mem b hx)

lemma listMin_append (l₁ l₂ : List (WithTop ℤ)) :
    listMin (l₁ ++ l₂) = min (listMin l₁) (listMin l₂) := by
  induction l₁ with
  | nil => simp [listMin]
  | cons a as ih =>
      simp only [List.cons_append, listMin, List.foldr_cons] at *
      rw [ih, min_assoc]

lemma sum_indicator_eq_countOnes : ∀ row : List Bool,
    (row.map (fun b => if b then 1 else 0)).sum = countOnes row := by
  intro row
  induction row with
  | nil => rfl
  | cons b bs ih =>
      cases b <;> simp [countOnes, List.count_cons] at * <;> omega

lemma mem_zip_left_of_mem {α β : Type} {y : β} :
    ∀ (l₁ : List α) (l₂ l₃ : List β), y ∈ l₂ → l₂.length ≤ l₁.length →
      ∃ p, (p, y) ∈ l₁.zip (l₂ ++ l₃) := by
  intro l₁ l₂
  induction l₂ generalizing l₁ with
  | nil => intro l₃ h; cases h
  | cons b bs ih =>
      intro l₃ hy hlen
      cases l₁ with
      | nil => simp at hlen
      | cons a as =>
          rcases List.mem_cons.mp hy with h | h
          · exact ⟨a, by simp [h]⟩
          · obtain ⟨p, hp⟩ := ih as l₃ h (by simpa using Nat.le_of_succ_le_succ hlen)
            exact ⟨p, List.mem_cons_of_mem _ hp⟩

/-- `pong_preprocess` from the notebook: crop rows 35..194 (`img[35:195]`),
downsample by 2 and keep channel 0 (`img[::2, ::2, 0]`), erase the two
background colours 144 and 109, and set every remaining nonzero pixel
to 1.  An image is a list of rows of pixels, a pixel a list of channel
values. -/
def pong_preprocess (img : List (List (List Nat))) : List (List Nat) :=
  let cropped := (img.drop 35).take 160
  let red := (everyOther cropped).map fun row => (everyOther row).map fun px => px.headD 0
  let erased := red.map fun row => row.map fun v => if v = 144 ∨ v = 109 then 0 else v
  erased.map fun row => row.map fun v => if v ≠ 0 then 1 else v

/-- The cropped, downsampled channel-0 plane that `pong_preprocess` builds
before the two `jnp.where` passes. -/
def downRed (img : List (List (List Nat))) : List (List Nat) :=
  (everyOther ((img.drop 35).take 160)).map fun row =>
    (everyOther row).map fun px => px.headD 0

/-- The per-pixel rule of `pong_preprocess`: background colours 144 and 109
become 0, every other nonzero value becomes 1, zero stays 0. -/
def pixelRule (v : Nat) : Nat := if v = 144 ∨ v = 109 then 0 else if v ≠ 0 then 1 else 0

/-- Shape invariant of `CustomGA`: population of shape `(pop_size, ndim)`,
fitness of length `pop_size`, offsprings of shape `(2 * pop_size, ndim)`. -/
def shapeOK (ga : CustomGA) (s : GAState) : Prop :=
  s.pop.length = ga.pop_size ∧ (∀ r ∈ s.pop, r.length = ga.ndim) ∧
    s.fit.length = ga.pop_size ∧
    s.offsprings.length = 2 * ga.pop_size ∧ (∀ r ∈ s.offsprings, r.length = ga.ndim)

/-- States reachable from `CustomGA.setup` by any sequence of `ask` and
`tell` calls, where each `tell` receives a fitness vector matching the
offsprings produced by `ask` (length `2 * pop_size`). -/
inductive Reach (ga : CustomGA) : GAState → Prop
  | setup (key : Nat) : Reach ga (CustomGA.setup ga key)
  | ask {s : GAState} : Reach ga s → Reach ga (CustomGA.ask ga s).2
  | tell {s : GAState} {f : List (WithTop ℤ)} (hf : f.length = 2 * ga.pop_size) :
      Reach ga s → Reach ga (CustomGA.tell ga s f)

/-- C4: `OneMax.evaluate` is an evaluator mapping candidate solutions to
fitness values: on any bitstring matrix it returns one fitness per row,
the i-th fitness being the number of ones (the row sum) of the i-th
bitstring, and it returns the state unchanged. -/
theorem onemax_evaluate_counts_ones {σ : Type} (state : σ) (bitstrings : List (List Bool)) :
    (OneMax.evaluate state bitstrings).1 = bitstrings.map countOnes ∧
    (OneMax.evaluate state bitstrings).1.length = bitstrings.length ∧
    (OneMax.evaluate state bitstrings).2 = state := by
  refine ⟨?_, by simp [OneMax.evaluate], rfl⟩
  show bitstrings.map (fun row => (row.map fun b => if b then 1 else 0).sum)
      = bitstrings.map countOnes
  have h : (fun row : List Bool => (row.map fun b => if b then 1 else 0).sum) = countOnes :=
    funext sum_indicator_eq_countOnes
  rw [h]

/-- C6: frame condition of `CustomGA`: `ask` leaves `pop` and `fit` exactly
as in the input state (updating only `offsprings` and `key`), and `tell`
leaves `offsprings` and `key` exactly as in the input state (updating only
`pop` and `fit`). -/
theorem ask_tell_frame (ga : CustomGA) (s : GAState) (f : List (WithTop ℤ)) :
    (CustomGA.ask ga s).2.pop = s.pop ∧ (CustomGA.ask ga s).2.fit = s.fit ∧
    (CustomGA.tell ga s f).offsprings = s.offsprings ∧ (CustomGA.tell ga s f).key = s.key :=
  ⟨rfl, rfl, rfl, rfl⟩

/-- C5: the operations thread an immutable state: `evaluate` hands its
state argument back unchanged, and `ask`, `tell` and the workflow `step`
each return a state that is the input state with only the indicated
fields replaced (the embedding's form of `state.update`); the input state
itself is a value that remains available unchanged. -/
theorem state_threading_immutable {σ : Type} (ga : CustomGA) (s : GAState)
    (f : List (WithTop ℤ)) (st : σ) (bs : List (List Bool)) (w : WFState) :
    (OneMax.evaluate st bs).2 = st ∧
    (∃ off k2, (CustomGA.ask ga s).2 = { s with offsprings := off, key := k2 }) ∧
    (∃ p2 f2, CustomGA.tell ga s f = { s with pop := p2, fit := f2 }) ∧
    (∃ g p, wfStep ga w = { w with gaState := g, pending := p }) :=
  ⟨rfl, ⟨_, _, rfl⟩, ⟨_, _, rfl⟩, ⟨_, _, rfl⟩⟩

/-- C8: `workflow.sample` returns the current candidate population paired
with a state on which further workflow operations (such as `step`) apply
exactly as on the input state. -/
theorem sample_returns_population (ga : CustomGA) (w : WFState) :
    (wfSample w).1 = w.gaState.pop ∧ (wfSample w).2 = w ∧
    wfStep ga (wfSample w).2 = wfStep ga w :=
  ⟨rfl, rfl, rfl⟩

/-- C2: workflow execution is deterministic in the initialization key: two
runs that initialize with equal keys and take the same number of steps
reach equal states, and the monitor reports the same best fitness in
both. -/
theorem workflow_deterministic (ga : CustomGA) (k₁ k₂ n : Nat) (h : k₁ = k₂) :
    stepN ga n (wfInit ga k₁) = stepN ga n (wfInit ga k₂) ∧
    get_best_fitness (flush (stepN ga n (wfInit ga k₁))) =
      get_best_fitness (flush (stepN ga n (wfInit ga k₂))) := by
  subst h
  exact ⟨rfl, rfl⟩

/-- Witness for C2 at key 42 and 3 steps. -/
theorem workflow_deterministic_witness :
    stepN ⟨4, 5, 10⟩ 3 (wfInit ⟨4, 5, 10⟩ 42) = stepN ⟨4, 5, 10⟩ 3 (wfInit ⟨4, 5, 10⟩ 42) ∧
    get_best_fitness (flush (stepN ⟨4, 5, 10⟩ 3 (wfInit ⟨4, 5, 10⟩ 42))) =
      get_best_fitness (flush (stepN ⟨4, 5, 10⟩ 3 (wfInit ⟨4, 5, 10⟩ 42))) :=
  workflow_deterministic ⟨4, 5, 10⟩ 42 42 3 rfl

/-- C3: the ask/tell contract of `CustomGA`: on a state whose population
has `pop_size` rows, `ask` returns exactly `2 * pop_size` candidate rows,
namely the bitflip mutants of the population concatenated with its
one-point-crossover children, together with the state updated with those
offsprings and a fresh key; and `tell` stores as `pop` and `fit` exactly
the `pop_size` best-by-fitness entries of the concatenation of the old
`(pop, fit)` with `(offsprings, fitness)`. -/
theorem customga_ask_tell_contract (ga : CustomGA) (s : GAState) (f : List (WithTop ℤ))
    (hpop : s.pop.length = ga.pop_size) :
    (CustomGA.ask ga s).1.length = 2 * ga.pop_size ∧
    (CustomGA.ask ga s).1 =
      bitflip (splitKey3 s.key).2.1 s.pop ga.flip_prob ++
        one_point (splitKey3 s.key).2.2 s.pop ∧
    (CustomGA.ask ga s).2 =
      { s with offsprings := (CustomGA.ask ga s).1, key := (splitKey3 s.key).1 } ∧
    (CustomGA.tell ga s f).pop = (topk_fit (s.pop ++ s.offsprings) (s.fit ++ f) ga.pop_size).1 ∧
    (CustomGA.tell ga s f).fit = (topk_fit (s.pop ++ s.offsprings) (s.fit ++ f) ga.pop_size).2 := by
  refine ⟨?_, rfl, rfl, rfl, rfl⟩
  show (bitflip (splitKey3 s.key).2.1 s.pop ga.flip_prob ++
      one_point (splitKey3 s.key).2.2 s.pop).length = 2 * ga.pop_size
  simp [bitflip, one_point, length_mapWithIdx, hpop]
  omega

/-- Witness for C3 on a concrete two-individual population. -/
theorem customga_ask_tell_contract_witness :
    (CustomGA.ask ⟨2, 3, 10⟩ ⟨[[true, false, true], [false, false, true]], [], [⊤, ⊤], 7⟩).1.length
        = 2 * (2 : Nat) ∧
    (CustomGA.ask ⟨2, 3, 10⟩ ⟨[[true, false, true], [false, false, true]], [], [⊤, ⊤], 7⟩).1 =
      bitflip (splitKey3 7).2.1 [[true, false, true], [false, false, true]] 10 ++
        one_point (splitKey3 7).2.2 [[true, false, true], [false, false, true]] ∧
    (CustomGA.ask ⟨2, 3, 10⟩ ⟨[[true, false, true], [false, false, true]], [], [⊤, ⊤], 7⟩).2 =
      { (⟨[[true, false, true], [false, false, true]], [], [⊤, ⊤], 7⟩ : GAState) with
          offsprings :=
            (CustomGA.ask ⟨2, 3, 10⟩
              ⟨[[true, false, true], [false, false, true]], [], [⊤, ⊤], 7⟩).1
          key := (splitKey3 7).1 } ∧
    (CustomGA.tell ⟨2, 3, 10⟩ ⟨[[true, false, true], [false, false, true]], [], [⊤, ⊤], 7⟩
        [(-2 : ℤ), (-1 : ℤ)]).pop =
      (topk_fit ([[true, false, true], [false, false, true]] ++ [])
        (([⊤, ⊤] : List (WithTop ℤ)) ++ ([(-2 : ℤ), (-1 : ℤ)] : List (WithTop ℤ))) 2).1 ∧
    (CustomGA.tell ⟨2, 3, 10⟩ ⟨[[true, false, true], [false, false, true]], [], [⊤, ⊤], 7⟩
        [(-2 : ℤ), (-1 : ℤ)]).fit =
      (topk_fit ([[true, false, true], [false, false, true]] ++ [])
        (([⊤, ⊤] : List (WithTop ℤ)) ++ ([(-2 : ℤ), (-1 : ℤ)] : List (WithTop ℤ))) 2).2 :=
  customga_ask_tell_contract ⟨2, 3, 10⟩
    ⟨[[true, false, true], [false, false, true]], [], [⊤, ⊤], 7⟩ [(-2 : ℤ), (-1 : ℤ)] rfl

lemma wfStep_collected (ga : CustomGA) (w : WFState) :
    (wfStep ga w).collected = w.collected := rfl

lemma wfStep_pending (ga : CustomGA) (w : WFState) :
    (wfStep ga w).pending = w.pending ++ stepFitness ga w := rfl

lemma stepN_collected_pending (ga : CustomGA) (key : Nat) : ∀ n : Nat,
    (stepN ga n (wfInit ga key)).collected ++ (stepN ga n (wfInit ga key)).pending
      = emittedN ga key n
  | 0 => rfl
  | n + 1 => by
      show (wfStep ga (stepN ga n (wfInit ga key))).collected ++
          (wfStep ga (stepN ga n (wfInit ga key))).pending = emittedN ga key (n + 1)
      rw [wfStep_collected, wfStep_pending, ← List.append_assoc,
        stepN_collected_pending ga key n]
      rfl

/-- C9: after `flush`, every fitness value emitted by the steps executed so
far has been collected (nothing is left pending, and the collected data is
exactly the emission history), and `get_best_fitness` returns the best
fitness over all steps executed so far. -/
theorem flush_collects_all_emitted (ga : CustomGA) (key n : Nat) :
    (flush (stepN ga n (wfInit ga key))).pending = [] ∧
    (flush (stepN ga n (wfInit ga key))).collected = emittedN ga key n ∧
    get_best_fitness (flush (stepN ga n (wfInit ga key))) = listMin (emittedN ga key n) := by
  refine ⟨rfl, ?_, ?_⟩
  · show (stepN ga n (wfInit ga key)).collected ++ (stepN ga n (wfInit ga key)).pending
        = emittedN ga key n
    exact stepN_collected_pending ga key n
  · show listMin ((stepN ga n (wfInit ga key)).collected ++ (stepN ga n (wfInit ga key)).pending)
        = listMin (emittedN ga key n)
    rw [stepN_collected_pending ga key n]

/-- C1: repeated steps never worsen the best fitness so far: the monitor's
best collected fitness after a step is at least as good as before it, and
for `CustomGA` the best (smallest) fitness in the state's `fit` field
never worsens across a `tell` call, because `tell` keeps the top
`pop_size` entries of the concatenation of the old population and fitness
with the offsprings and their fitness. -/
theorem step_best_fitness_monotone (ga : CustomGA) (s : GAState) (f : List (WithTop ℤ))
    (w : WFState) (hk : 0 < ga.pop_size) (hpop : s.pop.length = ga.pop_size)
    (hfit : s.fit.length = ga.pop_size) :
    listMin (CustomGA.tell ga s f).fit ≤ listMin s.fit ∧
    get_best_fitness (flush (wfStep ga w)) ≤ get_best_fitness (flush w) := by
  constructor
  · have hfit_def : (CustomGA.tell ga s f).fit =
        ((List.insertionSort fitLe ((s.pop ++ s.offsprings).zip (s.fit ++ f))).take
          ga.pop_size).map Prod.snd := rfl
    set sorted := List.insertionSort fitLe ((s.pop ++ s.offsprings).zip (s.fit ++ f)) with hs
    have hlen : sorted.length = min (s.pop ++ s.offsprings).length (s.fit ++ f).length := by
      rw [hs, List.length_insertionSort, List.length_zip]
    have h1 : 0 < sorted.length := by
      rw [hlen]
      refine lt_min ?_ ?_
      · simp only [List.length_append]
        omega
      · simp only [List.length_append]
        omega
    obtain ⟨hd, tl, hcons⟩ := List.exists_cons_of_ne_nil (List.length_pos.mp h1)
    have hsortedS : List.Sorted fitLe sorted := List.sorted_insertionSort fitLe _
    have hperm : sorted.Perm ((s.pop ++ s.offsprings).zip (s.fit ++ f)) :=
      List.perm_insertionSort fitLe _
    have hhd : ∀ y ∈ s.fit, hd.2 ≤ y := by
      intro y hy
      have hlen2 : s.fit.length ≤ (s.pop ++ s.offsprings).length := by
        simp only [List.length_append]
        omega
      obtain ⟨p, hp⟩ := mem_zip_left_of_mem (s.pop ++ s.offsprings) s.fit f hy hlen2
      have hmem : (p, y) ∈ sorted := hperm.mem_iff.mpr hp
      rw [hcons] at hmem
      rcases List.mem_cons.mp hmem with h | h
      · rw [← h]
      · have hrel : fitLe hd (p, y) := List.rel_of_sorted_cons (hcons ▸ hsortedS) _ h
        exact hrel
    have hdin : hd.2 ∈ (sorted.take ga.pop_size).map Prod.snd := by
      rw [hcons]
      obtain ⟨m, hm⟩ := Nat.exists_eq_succ_of_ne_zero (Nat.pos_iff_ne_zero.mp hk)
      rw [hm, List.take_succ_cons]
      exact List.mem_map_of_mem Prod.snd (List.mem_cons_self _ _)
    rw [hfit_def]
    exact le_trans (listMin_le_of_mem hdin) (le_listMin hhd)
  · show listMin ((wfStep ga w).collected ++ (wfStep ga w).pending)
        ≤ listMin (w.collected ++ w.pending)
    rw [wfStep_collected, wfStep_pending, ← List.append_assoc, listMin_append]
    exact min_le_left _ _

/-- Witness for C1 on a one-individual population. -/
theorem step_best_fitness_monotone_witness :
    listMin (CustomGA.tell ⟨1, 2, 10⟩ ⟨[[true, false]], [], [⊤], 5⟩ []).fit ≤
      listMin ((⟨[[true, false]], [], [⊤], 5⟩ : GAState)).fit ∧
    get_best_fitness (flush (wfStep ⟨1, 2, 10⟩ (wfInit ⟨1, 2, 10⟩ 3))) ≤
      get_best_fitness (flush (wfInit ⟨1, 2, 10⟩ 3)) :=
  step_best_fitness_monotone ⟨1, 2, 10⟩ ⟨[[true, false]], [], [⊤], 5⟩ [] (wfInit ⟨1, 2, 10⟩ 3)
    (by decide) rfl rfl

lemma getD_length_eq {nd : Nat} {l : List (List Bool)} {d : List Bool} (j : Nat)
    (hl : ∀ r ∈ l, r.length = nd) (hd : d.length = nd) : (l.getD j d).length = nd := by
  by_cases hj : j < l.length
  · rw [List.getD_eq_getElem l d hj]
    exact hl _ (List.getElem_mem hj)
  · rw [List.getD_eq_default l d (le_of_not_lt hj)]
    exact hd

lemma bitflip_length (key : Nat) (pop : List (List Bool)) (p : Nat) :
    (bitflip key pop p).length = pop.length :=
  length_mapWithIdx _ _ _

lemma bitflip_row_length {nd key p : Nat} {pop : List (List Bool)}
    (h : ∀ r ∈ pop, r.length = nd) : ∀ r ∈ bitflip key pop p, r.length = nd := by
  intro r hr
  rw [bitflip] at hr
  obtain ⟨j, a, ha, hx⟩ := mem_mapWithIdx hr
  rw [hx, length_mapWithIdx]
  exact h a ha

lemma one_point_length (key : Nat) (pop : List (List Bool)) :
    (one_point key pop).length = pop.length :=
  length_mapWithIdx _ _ _

lemma one_point_row_length {nd key : Nat} {pop : List (List Bool)}
    (h : ∀ r ∈ pop, r.length = nd) : ∀ r ∈ one_point key pop, r.length = nd := by
  intro r hr
  rw [one_point] at hr
  obtain ⟨j, a, ha, hx⟩ := mem_mapWithIdx hr
  have halen := h a ha
  have hplen : (pop.getD (if j % 2 = 0 then j + 1 else j - 1) a).length = nd :=
    getD_length_eq _ h halen
  have hcut : (key + j) % (a.length + 1) ≤ nd := by
    have hm : (key + j) % (a.length + 1) < a.length + 1 :=
      Nat.mod_lt (key + j) (Nat.succ_pos a.length)
    omega
  rw [hx]
  simp only [List.length_append, List.length_take, List.length_drop, hplen, halen]
  omega

lemma randBoolMat_length (key ps nd : Nat) : (randBoolMat key ps nd).length = ps := by
  simp [randBoolMat]

lemma randBoolMat_row_length (key ps nd : Nat) :
    ∀ r ∈ randBoolMat key ps nd, r.length = nd := by
  intro r hr
  simp only [randBoolMat, List.mem_map] at hr
  obtain ⟨i, _, hr⟩ := hr
  simp [← hr]

/-- C7: every state reachable from `setup` by `ask`/`tell` sequences (with
matching-length fitness vectors) keeps population shape
`(pop_size, ndim)`, fitness length `pop_size`, and offsprings shape
`(2 * pop_size, ndim)`: the population size never changes. -/
theorem reach_shape_invariant (ga : CustomGA) (s : GAState) (h : Reach ga s) :
    shapeOK ga s := by
  induction h with
  | setup key =>
      refine ⟨randBoolMat_length _ _ _, randBoolMat_row_length _ _ _,
        List.length_replicate _ _, ?_, ?_⟩
      · show (List.replicate (ga.pop_size * 2) (List.replicate ga.ndim false)).length
            = 2 * ga.pop_size
        rw [List.length_replicate]
        omega
      · intro r hr
        rw [List.eq_of_mem_replicate hr]
        exact List.length_replicate _ _
  | @ask s hs ih =>
      obtain ⟨hp, hpr, hf, ho, hor⟩ := ih
      refine ⟨hp, hpr, hf, ?_, ?_⟩
      · show (bitflip (splitKey3 s.key).2.1 s.pop ga.flip_prob ++
            one_point (splitKey3 s.key).2.2 s.pop).length = 2 * ga.pop_size
        rw [List.length_append, bitflip_length, one_point_length]
        omega
      · intro r hr
        have hr2 : r ∈ bitflip (splitKey3 s.key).2.1 s.pop ga.flip_prob ++
            one_point (splitKey3 s.key).2.2 s.pop := hr
        rcases List.mem_append.mp hr2 with h | h
        · exact bitflip_row_length hpr r h
        · exact one_point_row_length hpr r h
  | @tell s f hlenf hs ih =>
      obtain ⟨hp, hpr, hf, ho, hor⟩ := ih
      have hsortlen :
          (List.insertionSort fitLe ((s.pop ++ s.offsprings).zip (s.fit ++ f))).length
            = 3 * ga.pop_size := by
        rw [List.length_insertionSort, List.length_zip]
        simp only [List.length_append]
        rw [hp, hf, ho, hlenf]
        omega
      refine ⟨?_, ?_, ?_, ho, hor⟩
      · show (((List.insertionSort fitLe ((s.pop ++ s.offsprings).zip (s.fit ++ f))).take
            ga.pop_size).map Prod.fst).length = ga.pop_size
        rw [List.length_map, List.length_take, hsortlen]
        omega
      · intro r hr
        have hr2 : r ∈ ((List.insertionSort fitLe
            ((s.pop ++ s.offsprings).zip (s.fit ++ f))).take ga.pop_size).map Prod.fst := hr
        obtain ⟨pr, hpr2, hr3⟩ := List.mem_map.mp hr2
        have hmem : pr ∈ List.insertionSort fitLe ((s.pop ++ s.offsprings).zip (s.fit ++ f)) :=
          List.mem_of_mem_take hpr2
        have hmem2 : pr ∈ (s.pop ++ s.offsprings).zip (s.fit ++ f) :=
          (List.perm_insertionSort fitLe _).mem_iff.mp hmem
        have hmem3 : pr.1 ∈ s.pop ++ s.offsprings := (List.of_mem_zip hmem2).1
        rw [← hr3]
        rcases List.mem_append.mp hmem3 with h | h
        · exact hpr _ h
        · exact hor _ h
      · show (((List.insertionSort fitLe ((s.pop ++ s.offsprings).zip (s.fit ++ f))).take
            ga.pop_size).map Prod.snd).length = ga.pop_size
        rw [List.length_map, List.length_take, hsortlen]
        omega

/-- Witness for C7: the invariant holds at the state reached by
setup, one ask and one tell with a matching fitness vector. -/
theorem reach_shape_invariant_witness :
    shapeOK ⟨2, 3, 10⟩
      (CustomGA.tell ⟨2, 3, 10⟩ (CustomGA.ask ⟨2, 3, 10⟩ (CustomGA.setup ⟨2, 3, 10⟩ 9)).2
        [(-1 : ℤ), (-2 : ℤ), (0 : ℤ), (-3 : ℤ)]) :=
  reach_shape_invariant ⟨2, 3, 10⟩ _
    (Reach.tell (by decide) (Reach.ask (Reach.setup 9)))

lemma binarize_comp_erase :
    ((fun v : Nat => if v ≠ 0 then 1 else v) ∘ fun v : Nat =>
        if v = 144 ∨ v = 109 then 0 else v) = pixelRule := by
  funext v
  simp only [Function.comp, pixelRule]
  by_cases h : v = 144 ∨ v = 109
  · simp [h]
  · by_cases h0 : v = 0 <;> simp [h, h0]

/-- C10: on a 210x160 input image, `pong_preprocess` returns an 80x80
matrix whose every element is 0 or 1, obtained from the cropped and
downsampled channel-0 plane by mapping the background values 144 and 109
to 0 and every other nonzero value to 1. -/
theorem pong_preprocess_spec (img : List (List (List Nat)))
    (himg : img.length = 210) (hrow : ∀ r ∈ img, r.length = 160) :
    (pong_preprocess img).length = 80 ∧
    (∀ row ∈ pong_preprocess img, row.length = 80) ∧
    (∀ row ∈ pong_preprocess img, ∀ v ∈ row, v = 0 ∨ v = 1) ∧
    pong_preprocess img = (downRed img).map fun row => row.map pixelRule := by
  have hlenc : ((img.drop 35).take 160).length = 160 := by
    rw [List.length_take, List.length_drop, himg]
    omega
  refine ⟨?_, ?_, ?_, ?_⟩
  · simp only [pong_preprocess, List.length_map]
    rw [everyOther_length, hlenc]
  · intro row hrowmem
    simp only [pong_preprocess, List.map_map, List.mem_map] at hrowmem
    obtain ⟨r0, hr0, hrow0⟩ := hrowmem
    have hr0img : r0 ∈ img :=
      List.mem_of_mem_drop (List.mem_of_mem_take (mem_of_mem_everyOther hr0))
    have hlen0 : r0.length = 160 := hrow r0 hr0img
    rw [← hrow0]
    simp only [Function.comp, List.length_map]
    rw [everyOther_length, hlen0]
  · intro row hrowmem v hv
    simp only [pong_preprocess, List.mem_map] at hrowmem
    obtain ⟨r1, _, hrow1⟩ := hrowmem
    rw [← hrow1] at hv
    simp only [List.mem_map] at hv
    obtain ⟨u, _, hu⟩ := hv
    by_cases h0 : u = 0
    · left
      rw [← hu]
      simp [h0]
    · right
      rw [← hu]
      simp [h0]
  · simp only [pong_preprocess, downRed, List.map_map]
    congr 1
    funext r
    simp only [Function.comp]
    rw [List.map_map, binarize_comp_erase]

/-- A concrete 210x160 test image, uniformly of background colour 144. -/
def pongTestImg : List (List (List Nat)) :=
  List.replicate 210 (List.replicate 160 [144, 72, 17])

/-- Witness for C10 on the concrete test image. -/
theorem pong_preprocess_spec_witness :
    (pong_preprocess pongTestImg).length = 80 ∧
    (∀ row ∈ pong_preprocess pongTestImg, row.length = 80) ∧
    (∀ row ∈ pong_preprocess pongTestImg, ∀ v ∈ row, v = 0 ∨ v = 1) ∧
    pong_preprocess pongTestImg = (downRed pongTestImg).map fun row => row.map pixelRule :=
  pong_preprocess_spec pongTestImg
    (by simp only [pongTestImg, List.length_replicate])
    (fun r hr => by
      rw [List.eq_of_mem_replicate hr]
      exact List.length_replicate _ _)
